import Mathlib

/-!
Verification of the Strategic_Brain Monte Carlo simulation engine.

Shallow embedding of the simulation engine found in the repository
(runMonteCarlo, triangularSample, createHistogram).

Modelling conventions:
* JavaScript numbers are modelled as exact ordered-field elements: the
  histogram is stated polymorphically over a linear ordered field with a
  floor (instantiated at the rationals for executable checks and at the
  reals inside the engine); the sampler uses the reals because it takes
  square roots.
* The implicit Math.random() calls are modelled by an explicit stream
  rng : ℕ → ℝ of successive uniform draws (draw 2*i for the cost sample of
  iteration i, draw 2*i+1 for the time sample), which is exactly the
  injectable random source the design document prescribes.
* A JavaScript runtime exception (the NaN bin index of the histogram makes
  histogram[binIndex] undefined, so .count++ throws a TypeError) is
  modelled by Option: none means the call throws and no value is returned.
  In exact arithmetic a division x / 0 is 0 in Lean while JavaScript
  produces NaN or ±Infinity; every place where this matters is guarded
  explicitly so that the embedding agrees with the JavaScript control flow
  on the inputs the theorems speak about.
* The bin label strings produced with template literals and Math.round are
  abstracted to their two rounded integer endpoints.
-/

/-- One histogram bin: the two rounded label endpoints and the occupancy
count.  Mirrors the objects built by createHistogram. -/
structure HistBin where
  lo : ℤ
  hi : ℤ
  count : ℕ
  deriving DecidableEq

/-- JavaScript Math.round: round half toward positive infinity. -/
def jsRound {α : Type*} [LinearOrderedField α] [FloorRing α] (x : α) : ℤ :=
  ⌊x + 1 / 2⌋

/-- Sum of the occupancy counts of a list of bins. -/
def sumCounts (l : List HistBin) : ℕ :=
  (l.map HistBin.count).sum

/-- histogram[i].count++ : bump the count of bin i, leave other bins alone.
Out-of-range indices leave the list unchanged (they never occur: the
caller guards the index first, mirroring the JavaScript array access). -/
def bumpCount : List HistBin → ℕ → List HistBin
  | [], _ => []
  | b :: bs, 0 => ⟨b.lo, b.hi, b.count + 1⟩ :: bs
  | b :: bs, n + 1 => b :: bumpCount bs n

/-- JavaScript Math.min(...data) on a non-empty list; the empty case is
arbitrary (JavaScript yields Infinity there; no theorem below uses it). -/
def listMin {α : Type*} [LinearOrderedField α] : List α → α
  | [] => 0
  | x :: xs => xs.foldl min x

/-- JavaScript Math.max(...data) on a non-empty list; the empty case is
arbitrary (JavaScript yields -Infinity there; no theorem below uses it). -/
def listMax {α : Type*} [LinearOrderedField α] : List α → α
  | [] => 0
  | x :: xs => xs.foldl max x

/-- const binIndex = Math.min(Math.floor((val - min) / binSize), bins - 1)
from the counting loop of createHistogram. -/
def binIndex {α : Type*} [LinearOrderedField α] [FloorRing α]
    (mn binSize : α) (bins : ℕ) (v : α) : ℤ :=
  min ⌊(v - mn) / binSize⌋ ((bins : ℤ) - 1)

/-- The data.forEach loop of createHistogram: each value increments the bin
at its binIndex.  When binSize = 0 the JavaScript quotient is NaN, the
array access histogram[NaN] is undefined and .count++ throws: modelled by
none.  Likewise an index outside the array bounds throws. -/
def fillBins {α : Type*} [LinearOrderedField α] [FloorRing α]
    (mn binSize : α) (bins : ℕ) (h : List HistBin) :
    List α → Option (List HistBin)
  | [] => some h
  | v :: vs =>
    if binSize = 0 then
      none
    else
      if 0 ≤ binIndex mn binSize bins v ∧
          binIndex mn binSize bins v < (h.length : ℤ) then
        fillBins mn binSize bins (bumpCount h (binIndex mn binSize bins v).toNat) vs
      else
        none

/-- createHistogram(data, bins) from the source: min/max detection, equal
width binSize = range / bins, bin labels from the rounded boundaries, then
the counting loop. -/
def createHistogram {α : Type*} [LinearOrderedField α] [FloorRing α]
    (data : List α) (bins : ℕ) : Option (List HistBin) :=
  let mn := listMin data
  let mx := listMax data
  let range := mx - mn
  let binSize := range / (bins : α)
  let histogram := (List.range bins).map fun i =>
    ⟨jsRound (mn + (i : α) * binSize), jsRound (mn + ((i : α) + 1) * binSize), 0⟩
  fillBins mn binSize bins histogram data

/-- triangularSample(min, mode, max) from the source, with the internal
const u = Math.random() hoisted into an explicit parameter u.
f = (mode - min) / (max - min); the first branch is taken when u < f.
Note: with max = min the JavaScript f is NaN and u < NaN is false, so the
second branch is taken; here f = 0 by the division-by-zero convention and
u < 0 is false for every u ≥ 0, so the same branch is taken. -/
noncomputable def triangularSample (min mode max u : ℝ) : ℝ :=
  if u < (mode - min) / (max - min) then
    min + Real.sqrt (u * (max - min) * (mode - min))
  else
    max - Real.sqrt ((1 - u) * (max - min) * (max - mode))

/-- The cost samples pushed by the iteration loop of runMonteCarlo:
triangularSample(baseCost * 0.8, baseCost, baseCost * (1 + riskFactor/50))
at iteration i, consuming uniform draw 2*i. -/
noncomputable def costDraws (rng : ℕ → ℝ) (baseCost riskFactor : ℝ)
    (iterations : ℕ) : List ℝ :=
  (List.range iterations).map fun i =>
    triangularSample (baseCost * 0.8) baseCost
      (baseCost * (1 + riskFactor / 50)) (rng (2 * i))

/-- The time samples pushed by the iteration loop of runMonteCarlo,
consuming uniform draw 2*i + 1 at iteration i. -/
noncomputable def timeDraws (rng : ℕ → ℝ) (baseTime riskFactor : ℝ)
    (iterations : ℕ) : List ℝ :=
  (List.range iterations).map fun i =>
    triangularSample (baseTime * 0.8) baseTime
      (baseTime * (1 + riskFactor / 50)) (rng (2 * i + 1))

/-- The success counter of the iteration loop: iterations whose cost sample
is within 120% of baseCost and whose time sample is within 120% of
baseTime. -/
noncomputable def successCount (rng : ℕ → ℝ)
    (baseCost baseTime riskFactor : ℝ) (iterations : ℕ) : ℕ :=
  ((costDraws rng baseCost riskFactor iterations).zip
      (timeDraws rng baseTime riskFactor iterations)).countP
    fun p => decide (p.1 ≤ baseCost * 1.2 ∧ p.2 ≤ baseTime * 1.2)

/-- The result record assembled by runMonteCarlo. -/
structure SimulationResult where
  probabilityOfSuccess : ℝ
  expectedCost : ℝ
  expectedTime : ℝ
  costDistribution : List HistBin
  timeDistribution : List HistBin
  riskHeatmap : List (ℝ × ℝ × ℝ)

/-- runMonteCarlo(baseCost, baseTime, riskFactor, iterations) from the
source (the source defaults iterations to 5000; the default is not
modelled).  The two createHistogram calls happen while the result object
is assembled, and an exception in either aborts the whole call with no
partial result: modelled by the Option.  No input validation is performed
by the source. -/
noncomputable def runMonteCarlo (rng : ℕ → ℝ)
    (baseCost baseTime riskFactor : ℝ) (iterations : ℕ) :
    Option SimulationResult :=
  let costs := costDraws rng baseCost riskFactor iterations
  let times := timeDraws rng baseTime riskFactor iterations
  let successes := successCount rng baseCost baseTime riskFactor iterations
  match createHistogram costs 10, createHistogram times 10 with
  | some cd, some td =>
    some ⟨(successes : ℝ) / (iterations : ℝ),
          costs.sum / (iterations : ℝ),
          times.sum / (iterations : ℝ),
          cd, td, []⟩
  | _, _ => none

/-- The constant stream of uniform draws 1/2, used to instantiate
theorems about the engine at a concrete random source. -/
noncomputable def constHalf : ℕ → ℝ :=
  fun _ => 1 / 2

/-- C6: in the degenerate zero-width case max = min (which forces
mode = min as well), the sampler returns min for every uniform draw
u in [0,1). -/
theorem triangularSample_degenerate (min mode u : ℝ)
    (hmo : min ≤ mode) (hom : mode ≤ min) (hu0 : 0 ≤ u) (hu1 : u < 1) :
    triangularSample min mode min u = min := by
  have hm : mode = min := le_antisymm hom hmo
  subst hm
  have hf : (mode - mode) / (mode - mode) = 0 := by simp
  rw [triangularSample, hf, if_neg (not_lt.2 hu0)]
  simp

/-- Witness for C6 at the concrete instance sample(5, 5, 5, u) named by the spec. -/
theorem triangularSample_degenerate_witness :
    triangularSample 5 5 5 (1 / 2) = 5 :=
  triangularSample_degenerate 5 5 (1 / 2) le_rfl le_rfl (by norm_num)
    (by norm_num)

/-- C9: when mode = min and min < max, the branch fraction f is 0, the
sampler takes the second branch of the formula for every u in [0,1), and the
quantity under the square root is non-negative in either branch. -/
theorem triangularSample_mode_eq_min (min max u : ℝ)
    (hlt : min < max) (hu0 : 0 ≤ u) (hu1 : u < 1) :
    (min - min) / (max - min) = 0 ∧
    0 ≤ u * (max - min) * (min - min) ∧
    0 ≤ (1 - u) * (max - min) * (max - min) ∧
    triangularSample min min max u =
      max - Real.sqrt ((1 - u) * (max - min) * (max - min)) := by
  have hf : (min - min) / (max - min) = 0 := by simp
  refine ⟨hf, by simp, ?_, ?_⟩
  · have h1 : (0:ℝ) ≤ 1 - u := by linarith
    have h2 : (0:ℝ) ≤ max - min := by linarith
    positivity
  · rw [triangularSample, hf, if_neg (not_lt.2 hu0)]

/-- First-branch value is at least min (the square root is non-negative). -/
lemma tri_min_le_branch1 (min max mode u : ℝ) :
    min ≤ min + Real.sqrt (u * (max - min) * (mode - min)) := by
  have := Real.sqrt_nonneg (u * (max - min) * (mode - min))
  linarith

/-- First-branch value is at most mode whenever u ≤ f. -/
lemma tri_branch1_le_mode (min mode max u : ℝ) (hmo : min ≤ mode)
    (hlt : min < max) (hu : u ≤ (mode - min) / (max - min)) :
    min + Real.sqrt (u * (max - min) * (mode - min)) ≤ mode := by
  have hA : (0:ℝ) < max - min := sub_pos.2 hlt
  have hB : (0:ℝ) ≤ mode - min := sub_nonneg.2 hmo
  have h1 : u * (max - min) ≤ mode - min := by
    have h := mul_le_mul_of_nonneg_right hu hA.le
    rwa [div_mul_cancel₀ _ (ne_of_gt hA)] at h
  have h2 : u * (max - min) * (mode - min) ≤ (mode - min) * (mode - min) :=
    mul_le_mul_of_nonneg_right h1 hB
  have h3 : Real.sqrt (u * (max - min) * (mode - min)) ≤ mode - min := by
    calc Real.sqrt (u * (max - min) * (mode - min))
        ≤ Real.sqrt ((mode - min) * (mode - min)) := Real.sqrt_le_sqrt h2
      _ = mode - min := Real.sqrt_mul_self hB
  linarith

/-- Second-branch value is at least mode whenever f ≤ u. -/
lemma tri_mode_le_branch2 (min mode max u : ℝ) (hom : mode ≤ max)
    (hlt : min < max) (hf : (mode - min) / (max - min) ≤ u) (hu1 : u ≤ 1) :
    mode ≤ max - Real.sqrt ((1 - u) * (max - min) * (max - mode)) := by
  have hA : (0:ℝ) < max - min := sub_pos.2 hlt
  have hC : (0:ℝ) ≤ max - mode := sub_nonneg.2 hom
  have h0 : (1 - (mode - min) / (max - min)) * (max - min) = max - mode := by
    rw [sub_mul, one_mul, div_mul_cancel₀ _ (ne_of_gt hA)]
    ring
  have h1 : (1 - u) * (max - min) ≤ max - mode := by
    have h := mul_le_mul_of_nonneg_right (sub_le_sub_left hf 1) hA.le
    rwa [h0] at h
  have h2 : (1 - u) * (max - min) * (max - mode) ≤ (max - mode) * (max - mode) :=
    mul_le_mul_of_nonneg_right h1 hC
  have h3 : Real.sqrt ((1 - u) * (max - min) * (max - mode)) ≤ max - mode := by
    calc Real.sqrt ((1 - u) * (max - min) * (max - mode))
        ≤ Real.sqrt ((max - mode) * (max - mode)) := Real.sqrt_le_sqrt h2
      _ = max - mode := Real.sqrt_mul_self hC
  linarith

/-- Second-branch value is at most max (the square root is non-negative). -/
lemma tri_branch2_le_max (min max mode u : ℝ) :
    max - Real.sqrt ((1 - u) * (max - min) * (max - mode)) ≤ max := by
  have := Real.sqrt_nonneg ((1 - u) * (max - min) * (max - mode))
  linarith

/-- Core range bound for the sampler, shared by several theorems below. -/
lemma triangularSample_mem_Icc_aux (min mode max u : ℝ) (hmo : min ≤ mode)
    (hom : mode ≤ max) (hlt : min < max) (hu0 : 0 ≤ u) (hu1 : u < 1) :
    min ≤ triangularSample min mode max u ∧
      triangularSample min mode max u ≤ max := by
  rw [triangularSample]
  split_ifs with h
  · exact ⟨tri_min_le_branch1 min max mode u,
      le_trans (tri_branch1_le_mode min mode max u hmo hlt h.le) hom⟩
  · exact ⟨le_trans hmo
      (tri_mode_le_branch2 min mode max u hom hlt (not_lt.1 h) hu1.le),
      tri_branch2_le_max min max mode u⟩

/-- C3: for min ≤ mode ≤ max with min < max and any uniform draw
u in [0,1), the triangular sampler returns a value in the closed interval
from min to max. -/
theorem triangularSample_mem_Icc (min mode max u : ℝ) (hmo : min ≤ mode)
    (hom : mode ≤ max) (hlt : min < max) (hu0 : 0 ≤ u) (hu1 : u < 1) :
    triangularSample min mode max u ∈ Set.Icc min max :=
  Set.mem_Icc.2 (triangularSample_mem_Icc_aux min mode max u hmo hom hlt hu0 hu1)

/-- Witness for C3 at min = 0, mode = 1, max = 2, u = 1/2. -/
theorem triangularSample_mem_Icc_witness :
    triangularSample 0 1 2 (1 / 2) ∈ Set.Icc (0:ℝ) 2 :=
  triangularSample_mem_Icc 0 1 2 (1 / 2) (by norm_num) (by norm_num)
    (by norm_num) (by norm_num) (by norm_num)

/-- C10: with the distribution parameters fixed, the sampler is a
monotonically non-decreasing function of the uniform draw on [0,1), and
the two branch formulas meet at the mode when u equals the branch
fraction f = (mode - min) / (max - min). -/
theorem triangularSample_monotone :
    (∀ min mode max u v : ℝ, min ≤ mode → mode ≤ max → min < max →
      0 ≤ u → u ≤ v → v < 1 →
      triangularSample min mode max u ≤ triangularSample min mode max v) ∧
    (∀ min mode max : ℝ, min ≤ mode → mode ≤ max → min < max →
      min + Real.sqrt ((mode - min) / (max - min) * (max - min) * (mode - min))
          = mode ∧
      max - Real.sqrt ((1 - (mode - min) / (max - min)) * (max - min) * (max - mode))
          = mode) := by
  constructor
  · intro min mode max u v hmo hom hlt hu0 huv hv1
    have hA : (0:ℝ) < max - min := sub_pos.2 hlt
    have hB : (0:ℝ) ≤ mode - min := sub_nonneg.2 hmo
    have hC : (0:ℝ) ≤ max - mode := sub_nonneg.2 hom
    simp only [triangularSample]
    rcases lt_or_le u ((mode - min) / (max - min)) with hu | hu
    · rcases lt_or_le v ((mode - min) / (max - min)) with hv | hv
      · rw [if_pos hu, if_pos hv]
        have h2 : u * (max - min) * (mode - min)
            ≤ v * (max - min) * (mode - min) :=
          mul_le_mul_of_nonneg_right
            (mul_le_mul_of_nonneg_right huv hA.le) hB
        have := Real.sqrt_le_sqrt h2
        linarith
      · rw [if_pos hu, if_neg (not_lt.2 hv)]
        calc min + Real.sqrt (u * (max - min) * (mode - min))
            ≤ mode := tri_branch1_le_mode min mode max u hmo hlt hu.le
          _ ≤ max - Real.sqrt ((1 - v) * (max - min) * (max - mode)) :=
            tri_mode_le_branch2 min mode max v hom hlt hv hv1.le
    · rw [if_neg (not_lt.2 hu), if_neg (not_lt.2 (le_trans hu huv))]
      have h2 : (1 - v) * (max - min) * (max - mode)
          ≤ (1 - u) * (max - min) * (max - mode) := by
        have h1 : 1 - v ≤ 1 - u := by linarith
        exact mul_le_mul_of_nonneg_right
          (mul_le_mul_of_nonneg_right h1 hA.le) hC
      have := Real.sqrt_le_sqrt h2
      linarith
  · intro min mode max hmo hom hlt
    have hA : (0:ℝ) < max - min := sub_pos.2 hlt
    have hB : (0:ℝ) ≤ mode - min := sub_nonneg.2 hmo
    have hC : (0:ℝ) ≤ max - mode := sub_nonneg.2 hom
    constructor
    · rw [div_mul_cancel₀ _ (ne_of_gt hA), Real.sqrt_mul_self hB]
      ring
    · have h0 : (1 - (mode - min) / (max - min)) * (max - min) = max - mode := by
        rw [sub_mul, one_mul, div_mul_cancel₀ _ (ne_of_gt hA)]
        ring
      rw [h0, Real.sqrt_mul_self hC]
      ring

/-- Witness for C10: both conjuncts applied at min = 0, mode = 1, max = 2,
u = 1/4, v = 1/2. -/
theorem triangularSample_monotone_witness :
    triangularSample 0 1 2 (1 / 4) ≤ triangularSample 0 1 2 (1 / 2) ∧
    ((0:ℝ) + Real.sqrt ((1 - 0) / (2 - 0) * (2 - 0) * (1 - 0)) = 1 ∧
      (2:ℝ) - Real.sqrt ((1 - (1 - 0) / (2 - 0)) * (2 - 0) * (2 - 1)) = 1) :=
  ⟨triangularSample_monotone.1 0 1 2 (1 / 4) (1 / 2) (by norm_num)
      (by norm_num) (by norm_num) (by norm_num) (by norm_num) (by norm_num),
    triangularSample_monotone.2 0 1 2 (by norm_num) (by norm_num) (by norm_num)⟩

/-- The property (from the spec) that a draw stays within the baseline
budget. -/
def withinBudget (baseCost x : ℝ) : Prop :=
  x ≤ baseCost

/-- C7: with riskFactor = 0 the shaped cost distribution has
max = mode = baseCost, and every cost sample produced by the engine
iteration loop is at most baseCost, for uniform draws in [0,1). -/
theorem costDraws_le_baseCost (rng : ℕ → ℝ) (baseCost : ℝ) (iterations : ℕ)
    (hbc : 0 < baseCost) (hrng : ∀ i, 0 ≤ rng i ∧ rng i < 1) :
    (costDraws rng baseCost 0 iterations).Forall (withinBudget baseCost) := by
  rw [List.forall_iff_forall_mem]
  intro x hx
  rw [costDraws] at hx
  obtain ⟨i, -, rfl⟩ := List.mem_map.1 hx
  have hmax : baseCost * (1 + (0:ℝ) / 50) = baseCost := by norm_num
  rw [hmax]
  have hmo : baseCost * 0.8 ≤ baseCost := by nlinarith
  have hlt : baseCost * 0.8 < baseCost := by nlinarith
  exact (triangularSample_mem_Icc_aux (baseCost * 0.8) baseCost baseCost
    (rng (2 * i)) hmo le_rfl hlt (hrng (2 * i)).1 (hrng (2 * i)).2).2

/-- Witness for C7: the engine cost draws at baseCost = 1000,
riskFactor = 0, 20 iterations, with the constant-1/2 random source. -/
theorem costDraws_le_baseCost_witness :
    (costDraws constHalf 1000 0 20).Forall (withinBudget 1000) :=
  costDraws_le_baseCost constHalf 1000 20 (by norm_num)
    (fun i => by constructor <;> norm_num [constHalf])

/-- The property (from the spec) that the probabilityOfSuccess field of a
returned simulation result lies in the closed unit interval.  Trivially
satisfied when the call throws instead of returning. -/
def probabilityInUnit (o : Option SimulationResult) : Prop :=
  ∀ r ∈ o, 0 ≤ r.probabilityOfSuccess ∧ r.probabilityOfSuccess ≤ 1

/-- The success counter never exceeds the iteration count. -/
lemma successCount_le (rng : ℕ → ℝ) (baseCost baseTime riskFactor : ℝ)
    (iterations : ℕ) :
    successCount rng baseCost baseTime riskFactor iterations ≤ iterations := by
  rw [successCount]
  calc ((costDraws rng baseCost riskFactor iterations).zip
          (timeDraws rng baseTime riskFactor iterations)).countP _
      ≤ ((costDraws rng baseCost riskFactor iterations).zip
          (timeDraws rng baseTime riskFactor iterations)).length :=
        List.countP_le_length _
    _ ≤ iterations := by
        rw [List.length_zip, costDraws, timeDraws]
        simp

/-- C8: for every valid input (positive baselines, non-negative risk
factor, at least one iteration) and every random source, whenever
runMonteCarlo returns a result its probabilityOfSuccess lies in [0,1]. -/
theorem runMonteCarlo_probability_mem_unit (rng : ℕ → ℝ)
    (baseCost baseTime riskFactor : ℝ) (iterations : ℕ)
    (hbc : 0 < baseCost) (hbt : 0 < baseTime) (hrf : 0 ≤ riskFactor)
    (hn : 1 ≤ iterations) :
    probabilityInUnit (runMonteCarlo rng baseCost baseTime riskFactor
      iterations) := by
  intro r hr
  rw [Option.mem_def, runMonteCarlo] at hr
  have hs := successCount_le rng baseCost baseTime riskFactor iterations
  have hn0 : (0:ℝ) < (iterations : ℝ) := by
    exact_mod_cast lt_of_lt_of_le zero_lt_one hn
  rcases h1 : createHistogram (costDraws rng baseCost riskFactor iterations) 10
    with - | cd <;> rw [h1] at hr
  · exact absurd hr (by simp)
  rcases h2 : createHistogram (timeDraws rng baseTime riskFactor iterations) 10
    with - | td <;> rw [h2] at hr
  · exact absurd hr (by simp)
  have hrr : r = ⟨(successCount rng baseCost baseTime riskFactor iterations : ℝ)
      / (iterations : ℝ),
      (costDraws rng baseCost riskFactor iterations).sum / (iterations : ℝ),
      (timeDraws rng baseTime riskFactor iterations).sum / (iterations : ℝ),
      cd, td, []⟩ := by
    exact (Option.some_inj.1 hr).symm
  subst hrr
  constructor
  · exact div_nonneg (Nat.cast_nonneg _) (Nat.cast_nonneg _)
  · rw [div_le_one hn0]
    exact_mod_cast hs

/-- A two-valued random source: the first two draws are 0, all later draws
are 7/10.  With two iterations it produces two distinct cost samples and
two distinct time samples, so the histograms have a positive range and the
engine returns an actual result. -/
noncomputable def twoValuedDraws : ℕ → ℝ :=
  fun i => if i < 2 then 0 else 7 / 10

/-- Folding min never exceeds the start value. -/
lemma foldl_min_le_self {α : Type*} [LinearOrderedField α] :
    ∀ (xs : List α) (x : α), xs.foldl min x ≤ x
  | [], _ => le_rfl
  | z :: zs, x =>
    le_trans (foldl_min_le_self zs (min x z)) (min_le_left x z)

/-- Folding min never exceeds any list member. -/
lemma foldl_min_le_mem {α : Type*} [LinearOrderedField α] :
    ∀ (xs : List α) (x v : α), v ∈ xs → xs.foldl min x ≤ v
  | [], _, v, hv => absurd hv (List.not_mem_nil v)
  | z :: zs, x, v, hv => by
    rw [List.foldl_cons]
    rcases List.mem_cons.1 hv with rfl | hv
    · exact le_trans (foldl_min_le_self zs (min x v)) (min_le_right x v)
    · exact foldl_min_le_mem zs (min x z) v hv

/-- The detected minimum is a lower bound for every sample. -/
lemma listMin_le {α : Type*} [LinearOrderedField α]
    (data : List α) (v : α) (hv : v ∈ data) : listMin data ≤ v := by
  cases data with
  | nil => exact absurd hv (List.not_mem_nil v)
  | cons x xs =>
    simp only [listMin]
    rcases List.mem_cons.1 hv with rfl | hv
    · exact foldl_min_le_self xs v
    · exact foldl_min_le_mem xs x v hv

/-- bumpCount preserves the number of bins. -/
lemma length_bumpCount : ∀ (h : List HistBin) (i : ℕ),
    (bumpCount h i).length = h.length
  | [], _ => rfl
  | _ :: _, 0 => rfl
  | _ :: bs, n + 1 => by simp [bumpCount, length_bumpCount bs n]

/-- With a positive bin width, a full-width bin array and samples bounded
below by mn, the counting loop never throws: every bin index passes the
bounds check. -/
lemma fillBins_isSome {α : Type*} [LinearOrderedField α] [FloorRing α] :
    ∀ (vs : List α) (mn binSize : α) (bins : ℕ) (h : List HistBin),
      0 < binSize → 0 < bins → h.length = bins → (∀ v ∈ vs, mn ≤ v) →
      (fillBins mn binSize bins h vs).isSome = true
  | [], mn, binSize, bins, h, _, _, _, _ => by
    rw [fillBins]
    rfl
  | v :: vs, mn, binSize, bins, h, hbs, hb, hlen, hmem => by
    have hguard : 0 ≤ binIndex mn binSize bins v ∧
        binIndex mn binSize bins v < (h.length : ℤ) := by
      constructor
      · rw [binIndex]
        refine le_min (Int.floor_nonneg.2 ?_) (by omega)
        exact div_nonneg
          (sub_nonneg.2 (hmem v (List.mem_cons_self v vs))) hbs.le
      · rw [binIndex, hlen]
        exact lt_of_le_of_lt (min_le_right _ _) (by omega)
    rw [fillBins, if_neg (ne_of_gt hbs), if_pos hguard]
    exact fillBins_isSome vs mn binSize bins _ hbs hb
      (by rw [length_bumpCount, hlen])
      (fun w hw => hmem w (List.mem_cons_of_mem v hw))

/-- Whenever the detected range is positive and at least one bin is
requested, createHistogram returns a histogram (the throwing paths are
confined to the degenerate range = 0 case on non-empty data). -/
lemma createHistogram_isSome {α : Type*} [LinearOrderedField α] [FloorRing α]
    (data : List α) (bins : ℕ) (hb : 0 < bins)
    (hrange : listMin data < listMax data) :
    (createHistogram data bins).isSome = true := by
  rw [createHistogram]
  have hbs : 0 < (listMax data - listMin data) / (bins : α) :=
    div_pos (sub_pos.2 hrange) (by exact_mod_cast hb)
  exact fillBins_isSome data _ _ bins _ hbs hb (by simp)
    (fun v hv => listMin_le data v hv)

/-- The first-branch cost sample of the witness run: u = 0 gives the
distribution minimum 800. -/
lemma tri_cost_sample_lo : triangularSample 800 1000 2000 0 = 800 := by
  rw [triangularSample,
    if_pos (by norm_num : (0:ℝ) < (1000 - 800) / (2000 - 800))]
  norm_num

/-- The second-branch cost sample of the witness run:
u = 7/10 gives 2000 - sqrt(360000) = 1400. -/
lemma tri_cost_sample_hi : triangularSample 800 1000 2000 (7 / 10) = 1400 := by
  have hs : Real.sqrt ((1 - 7 / 10) * (2000 - 800) * (2000 - 1000)) = 600 := by
    rw [show ((1 - 7 / 10) * (2000 - 800) * (2000 - 1000) : ℝ) = 600 ^ 2 by
      norm_num]
    exact Real.sqrt_sq (by norm_num)
  rw [triangularSample,
    if_neg (by norm_num : ¬((7:ℝ) / 10 < (1000 - 800) / (2000 - 800))), hs]
  norm_num

/-- The first-branch time sample of the witness run: u = 0 gives the
distribution minimum 24. -/
lemma tri_time_sample_lo : triangularSample 24 30 60 0 = 24 := by
  rw [triangularSample,
    if_pos (by norm_num : (0:ℝ) < (30 - 24) / (60 - 24))]
  norm_num

/-- The second-branch time sample of the witness run:
u = 7/10 gives 60 - sqrt(324) = 42. -/
lemma tri_time_sample_hi : triangularSample 24 30 60 (7 / 10) = 42 := by
  have hs : Real.sqrt ((1 - 7 / 10) * (60 - 24) * (60 - 30)) = 18 := by
    rw [show ((1 - 7 / 10) * (60 - 24) * (60 - 30) : ℝ) = 18 ^ 2 by norm_num]
    exact Real.sqrt_sq (by norm_num)
  rw [triangularSample,
    if_neg (by norm_num : ¬((7:ℝ) / 10 < (30 - 24) / (60 - 24))), hs]
  norm_num

/-- The witness run draws the two distinct cost samples 800 and 1400. -/
lemma costDraws_twoValued : costDraws twoValuedDraws 1000 50 2 = [800, 1400] := by
  rw [costDraws, show List.range 2 = [0, 1] from rfl]
  simp only [List.map_cons, List.map_nil]
  norm_num [twoValuedDraws]
  exact ⟨tri_cost_sample_lo, tri_cost_sample_hi⟩

/-- The witness run draws the two distinct time samples 24 and 42. -/
lemma timeDraws_twoValued : timeDraws twoValuedDraws 30 50 2 = [24, 42] := by
  rw [timeDraws, show List.range 2 = [0, 1] from rfl]
  simp only [List.map_cons, List.map_nil]
  norm_num [twoValuedDraws]
  exact ⟨tri_time_sample_lo, tri_time_sample_hi⟩

/-- Witness for C8, non-vacuously: at baseCost 1000, baseTimeDays 30,
riskFactor 50, two iterations and the two-valued random source the engine
actually returns a result (the first conjunct), and the theorem bounds the
probabilityOfSuccess of every result it can return (the second).  -/
theorem runMonteCarlo_probability_mem_unit_witness :
    (runMonteCarlo twoValuedDraws 1000 30 50 2).isSome = true ∧
    probabilityInUnit (runMonteCarlo twoValuedDraws 1000 30 50 2) := by
  constructor
  · have hcost : (createHistogram (costDraws twoValuedDraws 1000 50 2)
        10).isSome = true := by
      rw [costDraws_twoValued]
      exact createHistogram_isSome _ _ (by norm_num)
        (by norm_num [listMin, listMax, min_def, max_def])
    have htime : (createHistogram (timeDraws twoValuedDraws 30 50 2)
        10).isSome = true := by
      rw [timeDraws_twoValued]
      exact createHistogram_isSome _ _ (by norm_num)
        (by norm_num [listMin, listMax, min_def, max_def])
    obtain ⟨cd, hcd⟩ := Option.isSome_iff_exists.1 hcost
    obtain ⟨td, htd⟩ := Option.isSome_iff_exists.1 htime
    simp only [runMonteCarlo, hcd, htd]
    rfl
  · exact runMonteCarlo_probability_mem_unit twoValuedDraws 1000 30 50 2
      (by norm_num) (by norm_num) (by norm_num) (by norm_num)

/-- C5: the engine is deterministic in its random source: two runs with the
same inputs whose random sources yield the same sequence of uniform draws
produce identical SimulationResult values. -/
theorem runMonteCarlo_deterministic (rng₁ rng₂ : ℕ → ℝ)
    (baseCost baseTime riskFactor : ℝ) (iterations : ℕ)
    (h : ∀ i, rng₁ i = rng₂ i) :
    runMonteCarlo rng₁ baseCost baseTime riskFactor iterations =
      runMonteCarlo rng₂ baseCost baseTime riskFactor iterations := by
  have hr : rng₁ = rng₂ := funext h
  rw [hr]

/-- Witness for C5 at the scenario from the spec: baseCost 1000, baseTimeDays 30,
riskFactor 50, 10000 iterations, the same fixed random source twice. -/
theorem runMonteCarlo_deterministic_witness :
    runMonteCarlo constHalf 1000 30 50 10000 =
      runMonteCarlo constHalf 1000 30 50 10000 :=
  runMonteCarlo_deterministic constHalf constHalf 1000 30 50 10000
    (fun _ => rfl)

/-- C2 (refuting the claimed behaviour): the source performs no input
validation at all.  Called with iterations = 0 it does not fail with
InvalidIterations: it runs to completion and hands back a result object
(whose numeric fields are 0/0, i.e. NaN in JavaScript). -/
theorem runMonteCarlo_zero_iterations_returns (rng : ℕ → ℝ) :
    (runMonteCarlo rng 1000 30 50 0).isSome = true := by
  rw [runMonteCarlo]
  rfl

/-- Witness for the C2 theorem at the constant-1/2 random source. -/
theorem runMonteCarlo_zero_iterations_returns_witness :
    (runMonteCarlo constHalf 1000 30 50 0).isSome = true :=
  runMonteCarlo_zero_iterations_returns constHalf

/-- bumpCount at an in-range index raises the total count by one. -/
lemma sumCounts_bumpCount : ∀ (h : List HistBin) (i : ℕ),
    i < h.length → sumCounts (bumpCount h i) = sumCounts h + 1
  | [], i, hi => absurd hi (by simp)
  | b :: bs, 0, _ => by
    simp only [bumpCount, sumCounts, List.map_cons, List.sum_cons]
    omega
  | b :: bs, n + 1, hn => by
    have hb : n < bs.length := by simpa using hn
    have ih := sumCounts_bumpCount bs n hb
    simp only [sumCounts] at ih
    simp only [bumpCount, sumCounts, List.map_cons, List.sum_cons, ih]
    omega

/-- Every sample placed by the counting loop raises the total count by
exactly one, so a successful loop adds the length of the data. -/
lemma fillBins_sumCounts {α : Type*} [LinearOrderedField α] [FloorRing α] :
    ∀ (data : List α) (mn binSize : α) (bins : ℕ) (h out : List HistBin),
      fillBins mn binSize bins h data = some out →
      sumCounts out = sumCounts h + data.length
  | [], mn, binSize, bins, h, out, hsome => by
    rw [fillBins] at hsome
    simp only [Option.some_inj] at hsome
    simp [hsome]
  | v :: vs, mn, binSize, bins, h, out, hsome => by
    rw [fillBins] at hsome
    by_cases h0 : binSize = 0
    · rw [if_pos h0] at hsome
      simp at hsome
    · rw [if_neg h0] at hsome
      by_cases hidx : 0 ≤ binIndex mn binSize bins v ∧
          binIndex mn binSize bins v < (h.length : ℤ)
      · rw [if_pos hidx] at hsome
        have hlt : (binIndex mn binSize bins v).toNat < h.length := by omega
        have ih := fillBins_sumCounts vs mn binSize bins
          (bumpCount h (binIndex mn binSize bins v).toNat) out hsome
        rw [ih, sumCounts_bumpCount h _ hlt]
        simp only [List.length_cons]
        omega
      · rw [if_neg hidx] at hsome
        simp at hsome

/-- The freshly initialised histogram has total count zero. -/
lemma sumCounts_init {α : Type*} [LinearOrderedField α] [FloorRing α]
    (mn binSize : α) (bins : ℕ) :
    sumCounts ((List.range bins).map fun (i : ℕ) =>
      (⟨jsRound (mn + (i : α) * binSize),
        jsRound (mn + ((i : α) + 1) * binSize), 0⟩ : HistBin)) = 0 := by
  rw [sumCounts, List.map_map]
  exact List.sum_eq_zero (by simp)

/-- Supporting invariant: whenever createHistogram returns at all, the bin
counts sum to exactly the number of samples — no sample is dropped or
double-counted.  (The claim fails only because the call can throw.) -/
theorem createHistogram_sumCounts {α : Type*} [LinearOrderedField α]
    [FloorRing α] (data : List α) (bins : ℕ) (out : List HistBin)
    (hsome : createHistogram data bins = some out) :
    sumCounts out = data.length := by
  rw [createHistogram] at hsome
  have h := fillBins_sumCounts data _ _ bins _ out hsome
  rwa [sumCounts_init, Nat.zero_add] at h

/-- Witness for the supporting invariant at data = [1, 2], one bin. -/
theorem createHistogram_sumCounts_witness :
    sumCounts [⟨1, 2, 2⟩] = ([(1:ℚ), 2]).length :=
  createHistogram_sumCounts [(1:ℚ), 2] 1 [⟨1, 2, 2⟩]
    (by norm_num [createHistogram, listMin, listMax, fillBins, binIndex,
      jsRound, bumpCount])

/-- C1 (refuting the claimed invariant as stated): on the all-identical
sample list [5, 5] with one bin, binSize is 0, the JavaScript bin index
(5 - 5) / 0 is NaN, and histogram[NaN].count++ throws: the call produces
no histogram at all, so the bin counts cannot sum to 2. -/
theorem createHistogram_constant_samples_fails :
    createHistogram [(5:ℚ), 5] 1 = none := by
  norm_num [createHistogram, listMin, listMax, fillBins]

/-- C4 (refuting the claimed guard): the source has no range == 0 guard.
On the single-sample list of the iterations = 1 scenario the division by
the zero bin width is executed, the NaN index is not clamped, and the
count update throws instead of assigning the sample to bin 0. -/
theorem createHistogram_single_sample_fails :
    createHistogram [(5:ℚ)] 10 = none := by
  norm_num [createHistogram, listMin, listMax, fillBins]

/-- Witness for C9 at min = 0, max = 2, u = 1/2. -/
theorem triangularSample_mode_eq_min_witness :
    ((0:ℝ) - 0) / (2 - 0) = 0 ∧
    0 ≤ (1 / 2 : ℝ) * (2 - 0) * (0 - 0) ∧
    0 ≤ (1 - 1 / 2 : ℝ) * (2 - 0) * (2 - 0) ∧
    triangularSample 0 0 2 (1 / 2) =
      2 - Real.sqrt ((1 - 1 / 2) * (2 - 0) * (2 - 0)) :=
  triangularSample_mode_eq_min 0 2 (1 / 2) (by norm_num) (by norm_num)
    (by norm_num)
